import Mathlib

set_option maxHeartbeats 1000000

/-!
Shallow embedding of the Jobi RAG chunking / ingestion / retrieval subsystem
(`src/jobi/rag/chunkers.py`, `src/jobi/rag/ingestion.py`, `src/jobi/rag/core.py`).

A Python `str` is modelled as `List Char` (a sequence of code points); Python
ints are modelled as `Int` where the source can produce negative values and as
`Nat` where it cannot; `float` scores and timestamps are modelled as exact
rationals; a fallible external call is modelled as an `Option` input.
-/

/-- Python whitespace as used by `str.strip()` (ASCII range). -/
def isPyWs (c : Char) : Bool :=
  c = ' ' || c = '\t' || c = '\n' || c = '\r' || c.toNat = 11 || c.toNat = 12

/-- Python `str.strip()`: drop leading and trailing whitespace. -/
def pyStrip (l : List Char) : List Char :=
  ((l.dropWhile isPyWs).reverse.dropWhile isPyWs).reverse

/-- Normalise a Python slice index to `[0, len]` (negative indices count from
the end, then the index is clamped), as CPython does for `s[a:b]` and for the
`start`/`end` arguments of `str.rfind`. -/
def pyNorm (len : Nat) (i : Int) : Nat :=
  if i < 0 then (i + len).toNat else min i.toNat len

/-- Python slice `s[a:b]`. -/
def pySlice (t : List Char) (a b : Int) : List Char :=
  (t.drop (pyNorm t.length a)).take (pyNorm t.length b - pyNorm t.length a)

/-- Python `s.rfind(' ', a, b)`: index of the last space in `s[a:b]`, `-1` if
there is none. -/
def pyRfindSpace (t : List Char) (a b : Int) : Int :=
  let a' := pyNorm t.length a
  let b' := pyNorm t.length b
  match ((List.range t.length).filter
      (fun j => decide (a' ≤ j ∧ j < b' ∧ t[j]? = some ' '))).getLast? with
  | some j => (j : Int)
  | none => -1

/-- One window of `DefaultChunker.chunk_text`: the right edge of the window
starting at `start`, after word-boundary snapping (`chunkers.py` lines 57-63). -/
def defaultWindowEnd (t : List Char) (cs : Int) (start : Int) : Int :=
  let end0 := start + cs
  if end0 < (t.length : Int) then
    let ls := pyRfindSpace t start end0
    if ls ≠ -1 ∧ ls > start then ls else end0
  else end0

/-- The `(start, end)` pairs visited by the `while` loop of
`DefaultChunker.chunk_text` (`chunkers.py` lines 56-72).  The source loop is
not guaranteed to terminate (the new start `end - overlap` can fail to
advance), so the recursion is bounded by explicit fuel; with enough fuel this
agrees with every terminating run of the source. -/
def chunkBounds (fuel : Nat) (t : List Char) (cs ov : Int) (start : Int) :
    List (Int × Int) :=
  match fuel with
  | 0 => []
  | fuel + 1 =>
    if start < (t.length : Int) then
      let e := defaultWindowEnd t cs start
      (start, e) ::
        (if e - ov ≥ (t.length : Int) then [] else chunkBounds fuel t cs ov (e - ov))
    else []

/-- `DefaultChunker.chunk_text` body of the `while` loop, emitting the stripped
window `text[start:end].strip()` and dropping it when empty
(`chunkers.py` lines 65-67). -/
def chunkLoop (fuel : Nat) (t : List Char) (cs ov : Int) (start : Int) :
    List (List Char) :=
  match fuel with
  | 0 => []
  | fuel + 1 =>
    if start < (t.length : Int) then
      let e := defaultWindowEnd t cs start
      let c := pyStrip (pySlice t start e)
      let rest :=
        if e - ov ≥ (t.length : Int) then [] else chunkLoop fuel t cs ov (e - ov)
      if c = [] then rest else c :: rest
    else []

/-- `DefaultChunker.chunk_text` (`chunkers.py` lines 48-74). -/
def DefaultChunker.chunk_text (fuel : Nat) (cs ov : Int) (t : List Char) :
    List (List Char) :=
  if (t.length : Int) ≤ cs then [t] else chunkLoop fuel t cs ov 0

/-- Projection of `chunkBounds` to the emitted chunks: each window is stripped
and empty results are dropped. -/
def chunksOfBounds (t : List Char) (bs : List (Int × Int)) : List (List Char) :=
  bs.filterMap (fun se =>
    let c := pyStrip (pySlice t se.1 se.2)
    if c = [] then none else some c)

/-- Python `text.split('\n\n')` (left-to-right, non-overlapping). -/
def splitNN : List Char → List (List Char)
  | '\n' :: '\n' :: cs => [] :: splitNN cs
  | c :: cs =>
    match splitNN cs with
    | [] => [[c]]
    | g :: gs => (c :: g) :: gs
  | [] => [[]]

/-- Paragraph accumulation loop of `SemanticChunker.chunk_text`
(`chunkers.py` lines 100-122), returning the accumulated chunk list with the
final-chunk flush folded in. -/
def semanticAccum (minS maxS : Nat) (ps : List (List Char)) (cur : List Char) :
    List (List Char) :=
  match ps with
  | [] => if pyStrip cur = [] then [] else [pyStrip cur]
  | p :: ps' =>
    if cur ≠ [] ∧ cur.length + p.length + 2 > maxS then
      if minS ≤ cur.length then pyStrip cur :: semanticAccum minS maxS ps' p
      else semanticAccum minS maxS ps' (cur ++ '\n' :: '\n' :: p)
    else
      semanticAccum minS maxS ps' (if cur = [] then p else cur ++ '\n' :: '\n' :: p)

/-- `SemanticChunker.chunk_text` (`chunkers.py` lines 95-134): paragraph split,
greedy accumulation, fixed-window re-split of oversized chunks, and the
`final_chunks or [text]` fallback. -/
def SemanticChunker.chunk_text (fuel : Nat) (minS maxS : Nat) (t : List Char) :
    List (List Char) :=
  let paragraphs := ((splitNN t).map pyStrip).filter (fun p => !p.isEmpty)
  let chunks := semanticAccum minS maxS paragraphs []
  let finalChunks := chunks.flatMap (fun c =>
    if c.length > maxS then DefaultChunker.chunk_text fuel (maxS : Int) 50 c else [c])
  if finalChunks = [] then [t] else finalChunks

/-- Python `text.split('\n')`. -/
def splitNl : List Char → List (List Char)
  | [] => [[]]
  | c :: cs =>
    if c = '\n' then [] :: splitNl cs
    else
      match splitNl cs with
      | [] => [[c]]
      | g :: gs => (c :: g) :: gs

/-- Python `'\n'.join(lines)`. -/
def joinLines : List (List Char) → List Char
  | [] => []
  | [l] => l
  | l :: l' :: ls => l ++ '\n' :: joinLines (l' :: ls)

/-- `needle` is a leading run of `hay` (Python `s.startswith`). -/
def isStartOf : List Char → List Char → Bool
  | [], _ => true
  | _ :: _, [] => false
  | a :: as, b :: bs => a = b && isStartOf as bs

/-- The regex `^\s*(def |class |function |var |let |const )` of
`CodeAwareChunker.chunk_text` (`chunkers.py` line 169). -/
def isDefLine (l : List Char) : Bool :=
  let s := l.dropWhile isPyWs
  ["def ", "class ", "function ", "var ", "let ", "const "].any
    (fun kw => isStartOf kw.data s)

/-- Line accumulation loop of `CodeAwareChunker.chunk_text`
(`chunkers.py` lines 165-184), including the final-chunk flush. -/
def codeLoop (maxS : Nat) (lines : List (List Char)) (cur : List (List Char))
    (size : Nat) (chunks : List (List Char)) : List (List Char) :=
  match lines with
  | [] => if cur = [] then chunks else chunks ++ [joinLines cur]
  | l :: ls =>
    let lineSize := l.length + 1
    if size + lineSize > maxS ∧ cur ≠ [] ∧ isDefLine l then
      codeLoop maxS ls [l] lineSize (chunks ++ [joinLines cur])
    else
      codeLoop maxS ls (cur ++ [l]) (size + lineSize) chunks

/-- `CodeAwareChunker.chunk_text` (`chunkers.py` lines 158-186). -/
def CodeAwareChunker.chunk_text (maxS : Nat) (t : List Char) : List (List Char) :=
  let r := codeLoop maxS (splitNl t) [] 0 []
  if r = [] then [t] else r

/-- Document-level metadata fields produced by
`MetadataExtractor.extract_metadata` (`utils.py` lines 64-122) that the
claims depend on.  `ingestion_time` is an exact rational (`time.time()` is a
float); fields not consumed by any claim (word counts, MIME type, language
guess, ...) are omitted. -/
structure DocMeta where
  filename : String
  source_file_hash : String
  is_original_content : Bool
  document_type : String
  ingestion_time : ℚ
deriving DecidableEq

/-- Per-chunk metadata as stored with each record: the spread of the base
document metadata plus the chunk-local fields that every built-in
`get_chunk_metadata` sets (`chunkers.py` lines 76-85, 136-149, 188-203).
Strategy-specific count fields are omitted (no claim consumes them). -/
structure ChunkMeta where
  filename : String
  source_file_hash : String
  is_original_content : Bool
  document_type : String
  ingestion_time : ℚ
  chunk_index : Nat
  chunk_count : Nat
  chunk_size : Nat
  chunker_type : String
deriving DecidableEq

instance : Inhabited ChunkMeta :=
  ⟨{ filename := "", source_file_hash := "", is_original_content := true
     document_type := "", ingestion_time := 0, chunk_index := 0
     chunk_count := 0, chunk_size := 0, chunker_type := "" }⟩

/-- The three built-in chunking strategies, with their constructor
parameters. -/
inductive Chunker where
  | defaultC (chunk_size overlap : Int)
  | semanticC (min_chunk_size max_chunk_size : Nat)
  | codeAwareC (max_chunk_size : Nat)
deriving DecidableEq

/-- Dispatch of `chunk_text` over the built-in strategies.  `fuel` bounds the
(possibly non-terminating) fixed-window loop. -/
def Chunker.chunkText (fuel : Nat) : Chunker → List Char → List (List Char)
  | .defaultC cs ov, t => DefaultChunker.chunk_text fuel cs ov t
  | .semanticC mn mx, t => SemanticChunker.chunk_text fuel mn mx t
  | .codeAwareC mx, t => CodeAwareChunker.chunk_text mx t

/-- Dispatch of `get_chunk_metadata`: every built-in variant spreads the base
metadata and sets `chunk_index`, `chunk_count`, `chunk_size` and its
`chunker_type` tag. -/
def Chunker.getChunkMetadata (ck : Chunker) (chunk : List Char) (i total : Nat)
    (base : DocMeta) : ChunkMeta :=
  { filename := base.filename
    source_file_hash := base.source_file_hash
    is_original_content := base.is_original_content
    document_type := base.document_type
    ingestion_time := base.ingestion_time
    chunk_index := i
    chunk_count := total
    chunk_size := chunk.length
    chunker_type :=
      match ck with
      | .defaultC _ _ => "default"
      | .semanticC _ _ => "semantic"
      | .codeAwareC _ => "code_aware" }

/-- One record of the ChromaDB collection: id, document text, metadata. -/
structure StoreRec where
  id : String
  doc : List Char
  meta : ChunkMeta
deriving DecidableEq

/-- `DocumentIngester._is_duplicate` (`ingestion.py` lines 180-193): does any
stored chunk carry this filename with an identical strong content hash? -/
def DocumentIngester.is_duplicate (store : List StoreRec) (fn fileHash : String) :
    Bool :=
  store.any (fun r => r.meta.filename = fn && r.meta.source_file_hash = fileHash)

/-- `DocumentIngester._remove_existing_document` (`ingestion.py` lines
195-210): collect the ids of all chunks whose metadata filename matches, then
delete those ids. -/
def DocumentIngester.remove_existing_document (store : List StoreRec)
    (fn : String) : List StoreRec :=
  let idsToRemove := store.filterMap
    (fun r => if r.meta.filename = fn then some r.id else none)
  store.filter (fun r => !idsToRemove.contains r.id)

/-- `DocumentIngester._generate_chunk_id` (`ingestion.py` lines 212-215).
`md5Pre` stands for `hashlib.md5(content).hexdigest()[:8]`: an arbitrary
deterministic function of the chunk text. -/
def DocumentIngester.generate_chunk_id (md5Pre : List Char → String)
    (fn : String) (i : Nat) (content : List Char) : String :=
  fn ++ "_chunk_" ++ toString i ++ "_" ++ md5Pre content

/-- The records written by one ingestion (`ingestion.py` lines 64-77). -/
def DocumentIngester.mkRecords (md5Pre : List Char → String) (ck : Chunker)
    (fn : String) (dm : DocMeta) (chunks : List (List Char)) : List StoreRec :=
  chunks.enum.map (fun ic =>
    { id := DocumentIngester.generate_chunk_id md5Pre fn ic.1 ic.2
      doc := ic.2
      meta := ck.getChunkMetadata ic.2 ic.1 chunks.length dm })

/-- `DocumentIngester.ingest_document` (`ingestion.py` lines 23-91) for an
existing file.  `sha256` stands for `hashlib.sha256(content).hexdigest()` (the
strong content hash of `MetadataExtractor.extract_metadata`) and `md5Pre` for
the chunk-id hash; both are arbitrary deterministic functions.  `docType` and
`now` stand for the extractor's inferred document type and `time.time()`.  A
blank file is rejected by `DocumentProcessor.read_file` before ingestion
(`utils.py` line 28), which surfaces as the `False` return at
`ingestion.py` line 44.  Returns the success flag and the resulting store. -/
def DocumentIngester.ingest_document (sha256 md5Pre : List Char → String)
    (fuel : Nat) (ck : Chunker) (store : List StoreRec) (fn : String)
    (docType : String) (now : ℚ) (content : List Char) : Bool × List StoreRec :=
  if pyStrip content = [] then (false, store)
  else
    let fileHash := sha256 content
    let dm : DocMeta :=
      { filename := fn, source_file_hash := fileHash, is_original_content := true
        document_type := docType, ingestion_time := now }
    if DocumentIngester.is_duplicate store fn fileHash then (true, store)
    else
      let store1 := DocumentIngester.remove_existing_document store fn
      let chunks := ck.chunkText fuel content
      if chunks = [] then (false, store1)
      else (true, store1 ++ DocumentIngester.mkRecords md5Pre ck fn dm chunks)

/-- A retrieval candidate: a `(document, metadata)` pair as returned by
`collection.query`. -/
abbrev Cand := List Char × ChunkMeta

/-- Python `s.lower()` (ASCII range). -/
def lowerStr (s : String) : String := String.mk (s.data.map Char.toLower)

/-- Python substring test `needle in hay`. -/
def containsSub (n : List Char) : List Char → Bool
  | [] => isStartOf n []
  | c :: cs => isStartOf n (c :: cs) || containsSub n cs

/-- `any(keyword in query.lower() for keyword in ['resume', 'experience',
'skills'])` (`core.py` line 262). -/
def queryKeywordHit (q : String) : Bool :=
  ["resume", "experience", "skills"].any
    (fun kw => containsSub kw.data (q.data.map Char.toLower))

/-- `RAGSystem._calculate_relevance_score` (`core.py` lines 252-273).  The
float arithmetic of the source is modelled exactly over `ℚ`; `now` stands for
`time.time()`. -/
def RAGSystem.calculate_relevance_score (_document : List Char) (m : ChunkMeta)
    (q : String) (now : ℚ) : ℚ :=
  let s1 : ℚ := 1 + (if m.is_original_content then (1 : ℚ) / 2 else 0)
  let s2 : ℚ := s1 +
    (if queryKeywordHit q ∧
        (lowerStr m.document_type = "resume" ∨ lowerStr m.document_type = "cv")
     then (3 : ℚ) / 10 else 0)
  s2 + (if 0 < m.ingestion_time ∧ (now - m.ingestion_time) / (24 * 3600) < 30
        then (1 : ℚ) / 10 else 0)

/-- Stable insertion into a descending-sorted list: `x` goes after every
element whose key is `≥ key x` and before the first strictly-smaller one. -/
def insertDescBy (key : α → ℚ) (x : α) : List α → List α
  | [] => [x]
  | y :: ys => if key y < key x then x :: y :: ys else y :: insertDescBy key x ys

/-- Python's stable `list.sort(key=..., reverse=True)`: descending by key,
ties keep their original relative order. -/
def sortDescBy (key : α → ℚ) (l : List α) : List α :=
  l.foldl (fun acc x => insertDescBy key x acc) []

/-- The scored candidate list of `RAGSystem.multi_stage_query`
(`core.py` lines 131-137). -/
def scoredOf (q : String) (now : ℚ) (cands : List Cand) : List (ℚ × Cand) :=
  cands.map (fun c => (RAGSystem.calculate_relevance_score c.1 c.2 q now, c))

/-- The result dictionary of the four query modes.  An `Option` field is
`none` when the corresponding key is absent from the returned dict. -/
structure QueryResult where
  query : String
  chunks : List (List Char)
  metadata : List ChunkMeta
  scores : Option (List ℚ)
  cluster_info : Option (List (String × Nat))
  source_integrity : Option String
deriving DecidableEq

/-- `RAGSystem.query` (`core.py` lines 83-116).  The external vector store is
modelled as the full similarity-ranked candidate list for the query text
(`rankedStore`); `collection.query(n_results=n)` returns its first `n`
entries, and `none` models the call raising an exception. -/
def RAGSystem.query (q : String) (n : Nat) (rankedStore : Option (List Cand)) :
    QueryResult :=
  match rankedStore with
  | none => ⟨q, [], [], none, none, some "error"⟩
  | some store =>
    let cands := store.take n
    ⟨q, cands.map Prod.fst, cands.map Prod.snd, none, none, some "preserved"⟩

/-- `RAGSystem.multi_stage_query` (`core.py` lines 118-153): broad retrieval
of `initial_results` candidates, re-scoring, stable descending sort, and
truncation to `final_results`. -/
def RAGSystem.multi_stage_query (q : String) (initial finalResults : Nat)
    (now : ℚ) (rankedStore : Option (List Cand)) : QueryResult :=
  match rankedStore with
  | none => ⟨q, [], [], none, none, some "error"⟩
  | some store =>
    let cands := store.take initial
    if cands = [] then ⟨q, [], [], none, none, some "preserved"⟩
    else
      let sorted := sortDescBy Prod.fst (scoredOf q now cands)
      let top := sorted.take finalResults
      ⟨q, top.map (fun r => r.2.1), top.map (fun r => r.2.2),
        some (top.map (fun r => r.1)), none, some "preserved"⟩

/-- Insertion into the `clusters` dict of `RAGSystem.cluster_based_retrieval`
(`core.py` lines 168-175): Python dicts preserve first-appearance key order
and append within a key. -/
def addToClusters (c : Cand) : List (String × List Cand) →
    List (String × List Cand)
  | [] => [(c.2.document_type, [c])]
  | (t, ds) :: rest =>
    if t = c.2.document_type then (t, ds ++ [c]) :: rest
    else (t, ds) :: addToClusters c rest

/-- Grouping of the broad candidate set by `document_type`. -/
def groupByType (cands : List Cand) : List (String × List Cand) :=
  cands.foldl (fun gs c => addToClusters c gs) []

/-- Inner loop of the cluster extraction (`core.py` lines 182-186): append
the docs of one cluster (already truncated to `results_per_cluster`),
breaking once `n` results are collected. -/
def takeUpTo (n : Nat) (docs : List Cand) (acc : List Cand) : List Cand :=
  match docs with
  | [] => acc
  | d :: ds =>
    let acc2 := acc ++ [d]
    if n ≤ acc2.length then acc2 else takeUpTo n ds acc2

/-- Outer loop over clusters (`core.py` lines 181-188). -/
def takeClusters (per n : Nat) (clusters : List (List Cand)) (acc : List Cand) :
    List Cand :=
  match clusters with
  | [] => acc
  | c :: rest =>
    let acc2 := takeUpTo n (c.take per) acc
    if n ≤ acc2.length then acc2 else takeClusters per n rest acc2

/-- `RAGSystem.cluster_based_retrieval` (`core.py` lines 155-199).  Note that
the empty-result and exception paths return a dict without a
`source_integrity` key. -/
def RAGSystem.cluster_based_retrieval (q : String) (n : Nat)
    (rankedStore : Option (List Cand)) : QueryResult :=
  match rankedStore with
  | none => ⟨q, [], [], none, some [], none⟩
  | some store =>
    let cands := store.take (n * 3)
    if cands = [] then ⟨q, [], [], none, some [], none⟩
    else
      let clusters := groupByType cands
      let per := max 1 (n / clusters.length)
      let picked := takeClusters per n (clusters.map Prod.snd) []
      ⟨q, picked.map Prod.fst, picked.map Prod.snd, none,
        some (clusters.map (fun g => (g.1, g.2.length))), some "preserved"⟩

/-- `RAGSystem.personalized_query` together with
`RAGSystem._apply_personalization_filters` (`core.py` lines 201-250).  The
`where` metadata filters are applied inside the external store and are part
of `rankedStore`; `preferRecent` models a truthy `prefer_recent` preference. -/
def RAGSystem.personalized_query (q : String) (n : Nat) (preferRecent : Bool)
    (rankedStore : Option (List Cand)) : QueryResult :=
  match rankedStore with
  | none => ⟨q, [], [], none, none, some "error"⟩
  | some store =>
    let cands := store.take (n * 2)
    if cands = [] then ⟨q, [], [], none, none, some "preserved"⟩
    else
      let combined :=
        if preferRecent then sortDescBy (fun c => c.2.ingestion_time) cands
        else cands
      let fin := combined.take n
      ⟨q, fin.map Prod.fst, fin.map Prod.snd, none, none, some "preserved"⟩

/-- The result dictionary of `RAGSystem.verify_source_integrity`; `Option`
fields are `none` when the key is absent on that path. -/
structure VerifyResult where
  status : String
  filename : String
  original_hash : Option String
  chunk_count : Option Nat
  integrity_preserved : Option Bool
deriving DecidableEq

/-- `RAGSystem.verify_source_integrity` (`core.py` lines 275-308): gather all
chunks flagged original-content for the filename (`original_hash` ends up as
the hash of the last one); report `verified` whenever any were found.  `none`
for the store models `collection.get()` raising.  The source also sorts the
gathered chunks by `chunk_index`, which does not affect any returned field. -/
def RAGSystem.verify_source_integrity (storeGet : Option (List StoreRec))
    (fn : String) : VerifyResult :=
  match storeGet with
  | none => ⟨"error", fn, none, none, none⟩
  | some store =>
    let fileChunks := store.filter
      (fun r => r.meta.filename = fn && r.meta.is_original_content)
    match fileChunks.getLast? with
    | none => ⟨"not_found", fn, none, none, none⟩
    | some last =>
      ⟨"verified", fn, some last.meta.source_file_hash, some fileChunks.length,
        some true⟩

/-- Replace the `is_original_content` flag of a chunk's metadata. -/
def setOriginal (m : ChunkMeta) (b : Bool) : ChunkMeta :=
  { m with is_original_content := b }

/-- The re-ranked candidate list of `multi_stage_query` before truncation. -/
def msSorted (q : String) (now : ℚ) (initial : Nat) (store : List Cand) :
    List (ℚ × Cand) :=
  sortDescBy Prod.fst (scoredOf q now (store.take initial))

/-- The final (truncated) ranked list of `multi_stage_query`. -/
def msTop (q : String) (now : ℚ) (initial finalResults : Nat)
    (store : List Cand) : List (ℚ × Cand) :=
  (msSorted q now initial store).take finalResults

/-- A concrete metadata value used by witnesses and counterexamples. -/
def sampleMeta (fn hash dt : String) (orig : Bool) : ChunkMeta :=
  { filename := fn, source_file_hash := hash, is_original_content := orig
    document_type := dt, ingestion_time := 1, chunk_index := 0, chunk_count := 1
    chunk_size := 1, chunker_type := "default" }

/-- A store already holding the single chunk of `doc.txt` under the same
content hash. -/
def c3store : List StoreRec :=
  [⟨"doc.txt_chunk_0_h", "hello".data, sampleMeta "doc.txt" "hello" "document" true⟩]

/-- A store holding one prior chunk of `f.txt` under content hash `"old"`. -/
def c4oldStore : List StoreRec :=
  [⟨"f.txt_chunk_0_m", "old".data, sampleMeta "f.txt" "old" "document" true⟩]

/-- A store holding one prior chunk of `f.txt` with chunk text `"ab"`. -/
def c4idStore : List StoreRec :=
  [⟨"f.txt_chunk_0_m", "ab".data, sampleMeta "f.txt" "ab" "document" true⟩]

/-- The line groups underlying `codeLoop`: the emitted chunks are exactly
these groups of consecutive lines, each joined with newlines. -/
def codeGroups (maxS : Nat) (lines : List (List Char)) (cur : List (List Char))
    (size : Nat) : List (List (List Char)) :=
  match lines with
  | [] => if cur = [] then [] else [cur]
  | l :: ls =>
    let lineSize := l.length + 1
    if size + lineSize > maxS ∧ cur ≠ [] ∧ isDefLine l then
      cur :: codeGroups maxS ls [l] lineSize
    else codeGroups maxS ls (cur ++ [l]) (size + lineSize)

def c8store : List StoreRec :=
  [⟨"id0", ['a'], sampleMeta "doc.txt" "aaa" "document" true⟩,
   ⟨"id1", ['b'], sampleMeta "doc.txt" "bbb" "document" true⟩]

theorem chunkLoop_eq_chunksOfBounds (fuel : Nat) (t : List Char) (cs ov : Int)
    (start : Int) :
    chunkLoop fuel t cs ov start = chunksOfBounds t (chunkBounds fuel t cs ov start) := by
  induction fuel generalizing start with
  | zero => rfl
  | succ fuel ih =>
    simp only [chunkLoop, chunkBounds]
    by_cases h : start < (t.length : Int)
    · simp only [if_pos h, chunksOfBounds, List.filterMap_cons]
      by_cases h2 : defaultWindowEnd t cs start - ov ≥ (t.length : Int)
      · by_cases h3 : pyStrip (pySlice t start (defaultWindowEnd t cs start)) = [] <;>
          simp [h2, h3, chunksOfBounds]
      · by_cases h3 : pyStrip (pySlice t start (defaultWindowEnd t cs start)) = [] <;>
          simp [h2, h3, ih, chunksOfBounds]
    · simp [h, chunksOfBounds]

-- sanity checks of the embedding on concrete inputs
example : DefaultChunker.chunk_text 20 5 0 "aaaa bbbb".data =
    ["aaaa".data, "bbbb".data] := by decide

example : DefaultChunker.chunk_text 20 4 1 (List.replicate 10 ' ') = [] := by decide

example : DefaultChunker.chunk_text 20 4 0 "ab cdefgh".data =
    ["ab".data, "cde".data, "fgh".data] := by decide

theorem le_getLast_of_pairwise_lt :
    ∀ (l : List Nat), l.Pairwise (· < ·) → ∀ a ∈ l, ∀ m, l.getLast? = some m →
      a ≤ m := by
  intro l
  induction l with
  | nil => intro _ a ha; cases ha
  | cons x xs ih =>
    intro hp a ha m hm
    cases xs with
    | nil =>
      simp only [List.mem_singleton] at ha
      simp only [List.getLast?_singleton, Option.some.injEq] at hm
      omega
    | cons y ys =>
      rw [List.getLast?_cons_cons] at hm
      rcases List.mem_cons.mp ha with rfl | ha'
      · have hmem : m ∈ y :: ys := List.mem_of_mem_getLast? hm
        have := (List.pairwise_cons.mp hp).1 m hmem
        omega
      · exact ih (List.pairwise_cons.mp hp).2 a ha' m hm

theorem pyRfindSpace_found (t : List Char) (a b : Int)
    (h : pyRfindSpace t a b ≠ -1) :
    ∃ j : Nat, pyRfindSpace t a b = (j : Int) ∧ j < t.length ∧
      t[j]? = some ' ' ∧ pyNorm t.length a ≤ j ∧ j < pyNorm t.length b := by
  simp only [pyRfindSpace] at h ⊢
  cases hlast : ((List.range t.length).filter
      (fun j => decide (pyNorm t.length a ≤ j ∧ j < pyNorm t.length b ∧
        t[j]? = some ' '))).getLast? with
  | none => rw [hlast] at h; exact absurd rfl h
  | some j =>
    have hmem := List.mem_of_mem_getLast? hlast
    have hfil := List.mem_filter.mp hmem
    have hrange := List.mem_range.mp hfil.1
    have hprop := of_decide_eq_true hfil.2
    exact ⟨j, rfl, hrange, hprop.2.2, hprop.1, hprop.2.1⟩

theorem pyRfindSpace_maximal (t : List Char) (a b : Int) (j : Nat)
    (hj1 : pyNorm t.length a ≤ j) (hj2 : j < pyNorm t.length b)
    (hj3 : t[j]? = some ' ') : (j : Int) ≤ pyRfindSpace t a b := by
  have hjlen : j < t.length := (List.getElem?_eq_some.mp hj3).1
  have hmem : j ∈ (List.range t.length).filter
      (fun j => decide (pyNorm t.length a ≤ j ∧ j < pyNorm t.length b ∧
        t[j]? = some ' ')) :=
    List.mem_filter.mpr ⟨List.mem_range.mpr hjlen,
      decide_eq_true ⟨hj1, hj2, hj3⟩⟩
  have hpair : ((List.range t.length).filter
      (fun j => decide (pyNorm t.length a ≤ j ∧ j < pyNorm t.length b ∧
        t[j]? = some ' '))).Pairwise (· < ·) :=
    (List.pairwise_lt_range t.length).filter _
  simp only [pyRfindSpace]
  cases hlast : ((List.range t.length).filter
      (fun j => decide (pyNorm t.length a ≤ j ∧ j < pyNorm t.length b ∧
        t[j]? = some ' '))).getLast? with
  | none =>
    rw [List.getLast?_eq_none_iff] at hlast
    rw [hlast] at hmem
    cases hmem
  | some m =>
    show (j : Int) ≤ (m : Int)
    exact_mod_cast le_getLast_of_pairwise_lt _ hpair j hmem m hlast

theorem chunkBounds_boundary (fuel : Nat) (t : List Char) (cs ov : Int) :
    ∀ (start : Int), ∀ se ∈ chunkBounds fuel t cs ov start,
      (∃ j : Nat, (j : Int) = se.2 ∧ j < t.length ∧ t[j]? = some ' ' ∧
        se.1 < se.2) ∨
      (se.2 = se.1 + cs ∧ ((t.length : Int) ≤ se.1 + cs ∨
        ∀ j : Nat, pyNorm t.length se.1 ≤ j → j < pyNorm t.length (se.1 + cs) →
          se.1 < (j : Int) → ¬ t[j]? = some ' ')) := by
  induction fuel with
  | zero => intro start se h; cases h
  | succ fuel ih =>
    intro start se hse
    simp only [chunkBounds] at hse
    by_cases hlt : start < (t.length : Int)
    · rw [if_pos hlt] at hse
      rcases List.mem_cons.mp hse with heq | hrest
      · subst heq
        simp only []
        unfold defaultWindowEnd
        by_cases h1 : start + cs < (t.length : Int)
        · rw [if_pos h1]
          by_cases h2 : pyRfindSpace t start (start + cs) ≠ -1 ∧
              pyRfindSpace t start (start + cs) > start
          · rw [if_pos h2]
            obtain ⟨j, hj, hjlen, hjsp, _, _⟩ := pyRfindSpace_found t start
              (start + cs) h2.1
            exact Or.inl ⟨j, hj.symm, hjlen, hjsp, hj ▸ h2.2⟩
          · rw [if_neg h2]
            refine Or.inr ⟨rfl, Or.inr ?_⟩
            intro j hja hjb hjgt hjsp
            have hle := pyRfindSpace_maximal t start (start + cs) j hja hjb hjsp
            rcases not_and_or.mp h2 with h3 | h3
            · push_neg at h3
              rw [h3] at hle
              omega
            · push_neg at h3
              omega
        · rw [if_neg h1]
          exact Or.inr ⟨rfl, Or.inl (by omega)⟩
      · by_cases h4 : defaultWindowEnd t cs start - ov ≥ (t.length : Int)
        · rw [if_pos h4] at hrest
          cases hrest
        · rw [if_neg h4] at hrest
          exact ih _ se hrest
    · rw [if_neg hlt] at hse
      cases hse

/-- C1 (corrected).  For text longer than `chunk_size`, the chunks emitted by
`DefaultChunker.chunk_text` are the whitespace-*stripped* window slices
`text[start:end].strip()` with empty results dropped (so concatenation minus
overlap reconstructs the original only up to stripped whitespace, not
exactly); and every window's right edge is either a space strictly after the
window start, or exactly `chunk_size` past the window start when the window
reaches text end or contains no space strictly after its start. -/
theorem c1_default_chunker_boundaries (t : List Char) (cs ov : Int)
    (fuel : Nat) (h : cs < (t.length : Int)) :
    DefaultChunker.chunk_text fuel cs ov t =
      chunksOfBounds t (chunkBounds fuel t cs ov 0) ∧
    ∀ se ∈ chunkBounds fuel t cs ov 0,
      (∃ j : Nat, (j : Int) = se.2 ∧ j < t.length ∧ t[j]? = some ' ' ∧
        se.1 < se.2) ∨
      (se.2 = se.1 + cs ∧ ((t.length : Int) ≤ se.1 + cs ∨
        ∀ j : Nat, pyNorm t.length se.1 ≤ j → j < pyNorm t.length (se.1 + cs) →
          se.1 < (j : Int) → ¬ t[j]? = some ' ')) := by
  constructor
  · unfold DefaultChunker.chunk_text
    rw [if_neg (not_le.mpr h), chunkLoop_eq_chunksOfBounds]
  · exact chunkBounds_boundary fuel t cs ov 0

/-- Witness for C1 at a concrete input. -/
theorem c1_default_chunker_boundaries_witness :
    DefaultChunker.chunk_text 20 5 0 "aaaa bbbb".data =
      chunksOfBounds "aaaa bbbb".data (chunkBounds 20 "aaaa bbbb".data 5 0 0) :=
  (c1_default_chunker_boundaries "aaaa bbbb".data 5 0 20 (by decide)).1

/-- C1 counterexample.  (i) `"aaaa bbbb"` with `chunk_size=5, overlap=0` chunks
to `["aaaa", "bbbb"]`: the boundary space is stripped, so concatenating the
chunks (there is no overlap to remove) does not reconstruct the text.
(ii) `"ab cdefgh"` with `chunk_size=4, overlap=0` produces the non-final
boundary `(2, 6)`: position 6 is not a space and sits exactly `chunk_size`
past the window start even though the window `[2, 6)` does contain a space
(at its start, position 2) — refuting the claim's boundary clause as
stated. -/
theorem c1_counterexample :
    (DefaultChunker.chunk_text 20 5 0 "aaaa bbbb".data).flatten ≠
      "aaaa bbbb".data ∧
    5 < ("aaaa bbbb".data.length : Int) ∧
    chunkBounds 20 "ab cdefgh".data 4 0 0 = [(0, 2), (2, 6), (6, 10)] ∧
    "ab cdefgh".data[2]? = some ' ' ∧
    ¬ "ab cdefgh".data[6]? = some ' ' := by
  exact ⟨by decide, by decide, by decide, by decide, by decide⟩

-- sanity checks
example : splitNN "aa\n\n\nbb".data = ["aa".data, "\nbb".data] := by decide

example : splitNl "a\nb".data = ["a".data, "b".data] := by decide

example : joinLines ["a".data, "b".data] = "a\nb".data := by decide

example : isDefLine "  def f(x):".data = true := by decide

example : isDefLine "x = 1".data = false := by decide

example : CodeAwareChunker.chunk_text 8 "x = 1\ndef f():\n  pass".data =
    ["x = 1".data, "def f():\n  pass".data] := by decide

example : SemanticChunker.chunk_text 50 3 8 "aaa\n\nbbb\n\nc".data =
    ["aaa\n\nbbb".data, "c".data] := by decide

theorem insertDescBy_perm (key : α → ℚ) (x : α) (l : List α) :
    (insertDescBy key x l).Perm (x :: l) := by
  induction l with
  | nil => exact List.Perm.refl _
  | cons y ys ih =>
    unfold insertDescBy
    by_cases h : key y < key x
    · rw [if_pos h]
    · rw [if_neg h]
      exact (ih.cons y).trans (List.Perm.swap x y ys)

theorem foldl_insertDescBy_perm (key : α → ℚ) (l : List α) :
    ∀ acc : List α,
      (l.foldl (fun acc x => insertDescBy key x acc) acc).Perm (acc ++ l) := by
  induction l with
  | nil => intro acc; simp
  | cons x xs ih =>
    intro acc
    have h1 := ih (insertDescBy key x acc)
    have h2 : (insertDescBy key x acc ++ xs).Perm ((x :: acc) ++ xs) :=
      (insertDescBy_perm key x acc).append_right xs
    have h3 : ((x :: acc) ++ xs).Perm (acc ++ x :: xs) := by
      simpa using List.perm_middle.symm
    exact (h1.trans h2).trans h3

theorem sortDescBy_perm (key : α → ℚ) (l : List α) :
    (sortDescBy key l).Perm l := by
  simpa using foldl_insertDescBy_perm key l []

theorem insertDescBy_pairwise (key : α → ℚ) (x : α) (l : List α)
    (h : l.Pairwise (fun a b => key b ≤ key a)) :
    (insertDescBy key x l).Pairwise (fun a b => key b ≤ key a) := by
  induction l with
  | nil => simp [insertDescBy]
  | cons y ys ih =>
    unfold insertDescBy
    obtain ⟨hy, htail⟩ := List.pairwise_cons.mp h
    by_cases hxy : key y < key x
    · rw [if_pos hxy]
      refine List.pairwise_cons.mpr ⟨?_, h⟩
      intro z hz
      rcases List.mem_cons.mp hz with rfl | hz'
      · exact le_of_lt hxy
      · exact le_trans (hy z hz') (le_of_lt hxy)
    · rw [if_neg hxy]
      refine List.pairwise_cons.mpr ⟨?_, ih htail⟩
      intro z hz
      have hz' : z ∈ x :: ys := (insertDescBy_perm key x ys).mem_iff.mp hz
      rcases List.mem_cons.mp hz' with rfl | hz''
      · exact not_lt.mp hxy
      · exact hy z hz''

theorem foldl_insertDescBy_pairwise (key : α → ℚ) (l : List α) :
    ∀ acc : List α, acc.Pairwise (fun a b => key b ≤ key a) →
      (l.foldl (fun acc x => insertDescBy key x acc) acc).Pairwise
        (fun a b => key b ≤ key a) := by
  induction l with
  | nil => intro acc h; exact h
  | cons x xs ih =>
    intro acc h
    exact ih (insertDescBy key x acc) (insertDescBy_pairwise key x acc h)

theorem sortDescBy_pairwise (key : α → ℚ) (l : List α) :
    (sortDescBy key l).Pairwise (fun a b => key b ≤ key a) :=
  foldl_insertDescBy_pairwise key l [] List.Pairwise.nil

theorem insertDescBy_filter_key (key : α → ℚ) (x : α) (l : List α) (s : ℚ)
    (h : l.Pairwise (fun a b => key b ≤ key a)) :
    (insertDescBy key x l).filter (fun a => key a = s) =
      l.filter (fun a => key a = s) ++ (if key x = s then [x] else []) := by
  induction l with
  | nil => by_cases hx : key x = s <;> simp [insertDescBy, hx]
  | cons y ys ih =>
    obtain ⟨hy, htail⟩ := List.pairwise_cons.mp h
    unfold insertDescBy
    by_cases hxy : key y < key x
    · rw [if_pos hxy]
      by_cases hx : key x = s
      · have hnil : (y :: ys).filter (fun a => key a = s) = [] := by
          apply List.filter_eq_nil_iff.mpr
          intro z hz
          have hzle : key z ≤ key y := by
            rcases List.mem_cons.mp hz with rfl | hz'
            · exact le_refl _
            · exact hy z hz'
          simp only [decide_eq_true_eq]
          intro hzs
          rw [← hx] at hzs
          exact absurd hzs (ne_of_lt (lt_of_le_of_lt hzle hxy))
        rw [List.filter_cons_of_pos (by simpa using hx), hnil]
        simp [hx]
      · rw [List.filter_cons_of_neg (by simpa using hx)]
        simp [hx]
    · rw [if_neg hxy]
      by_cases hys : key y = s
      · rw [List.filter_cons_of_pos (by simpa using hys),
          List.filter_cons_of_pos (by simpa using hys), ih htail]
        simp
      · rw [List.filter_cons_of_neg (by simpa using hys),
          List.filter_cons_of_neg (by simpa using hys), ih htail]

theorem foldl_insertDescBy_filter_key (key : α → ℚ) (l : List α) (s : ℚ) :
    ∀ acc : List α, acc.Pairwise (fun a b => key b ≤ key a) →
      (l.foldl (fun acc x => insertDescBy key x acc) acc).filter
        (fun a => key a = s) =
        acc.filter (fun a => key a = s) ++ l.filter (fun a => key a = s) := by
  induction l with
  | nil => intro acc _; simp
  | cons x xs ih =>
    intro acc h
    rw [List.foldl_cons, ih (insertDescBy key x acc)
      (insertDescBy_pairwise key x acc h), insertDescBy_filter_key key x acc s h]
    by_cases hx : key x = s
    · rw [List.filter_cons_of_pos (by simpa using hx)]
      simp [hx]
    · rw [List.filter_cons_of_neg (by simpa using hx)]
      simp [hx]

/-- Stability of the Python sort: for every key value, the elements carrying
that key appear in the sorted output in their original relative order. -/
theorem sortDescBy_filter_key (key : α → ℚ) (l : List α) (s : ℚ) :
    (sortDescBy key l).filter (fun a => key a = s) =
      l.filter (fun a => key a = s) := by
  simpa using foldl_insertDescBy_filter_key key l s [] List.Pairwise.nil

theorem scoredOf_fst (q : String) (now : ℚ) (cands : List Cand) :
    ∀ p ∈ scoredOf q now cands,
      p.1 = RAGSystem.calculate_relevance_score p.2.1 p.2.2 q now := by
  intro p hp
  obtain ⟨c, _, rfl⟩ := List.mem_map.mp hp
  rfl

theorem score_setOriginal (d : List Char) (m : ChunkMeta) (q : String)
    (now : ℚ) :
    RAGSystem.calculate_relevance_score d (setOriginal m true) q now =
      RAGSystem.calculate_relevance_score d (setOriginal m false) q now +
        1 / 2 := by
  unfold RAGSystem.calculate_relevance_score setOriginal
  simp only [if_true, if_false]
  split_ifs <;> try ring_nf
  all_goals exact False.elim (by assumption)

theorem takeUpTo_length_le (n : Nat) (docs : List Cand) :
    ∀ acc : List Cand, acc.length < n → (takeUpTo n docs acc).length ≤ n := by
  induction docs with
  | nil => intro acc h; exact le_of_lt h
  | cons d ds ih =>
    intro acc h
    simp only [takeUpTo]
    by_cases h2 : n ≤ (acc ++ [d]).length
    · rw [if_pos h2]
      simp only [List.length_append, List.length_singleton]
      omega
    · rw [if_neg h2]
      apply ih
      simp only [List.length_append, List.length_singleton] at h2 ⊢
      omega

theorem takeUpTo_length_le_add (n : Nat) (docs : List Cand) :
    ∀ acc : List Cand,
      (takeUpTo n docs acc).length ≤ acc.length + docs.length := by
  induction docs with
  | nil => intro acc; simp [takeUpTo]
  | cons d ds ih =>
    intro acc
    simp only [takeUpTo]
    have h3 : (acc ++ [d]).length = acc.length + 1 := by simp
    have h4 : (d :: ds).length = ds.length + 1 := by simp
    by_cases h2 : n ≤ (acc ++ [d]).length
    · rw [if_pos h2]
      omega
    · rw [if_neg h2]
      have h5 := ih (acc ++ [d])
      omega

theorem takeUpTo_append (n : Nat) (docs : List Cand) :
    ∀ acc : List Cand, ∃ s, takeUpTo n docs acc = acc ++ s := by
  induction docs with
  | nil => intro acc; exact ⟨[], by simp [takeUpTo]⟩
  | cons d ds ih =>
    intro acc
    simp only [takeUpTo]
    by_cases h2 : n ≤ (acc ++ [d]).length
    · rw [if_pos h2]
      exact ⟨[d], rfl⟩
    · rw [if_neg h2]
      obtain ⟨s, hs⟩ := ih (acc ++ [d])
      exact ⟨d :: s, by rw [hs]; simp⟩

theorem takeClusters_length_le (per n : Nat) (cls : List (List Cand)) :
    ∀ acc : List Cand, acc.length < n →
      (takeClusters per n cls acc).length ≤ n := by
  induction cls with
  | nil => intro acc h; exact le_of_lt h
  | cons c rest ih =>
    intro acc h
    simp only [takeClusters]
    by_cases h2 : n ≤ (takeUpTo n (c.take per) acc).length
    · rw [if_pos h2]
      exact takeUpTo_length_le n (c.take per) acc h
    · rw [if_neg h2]
      exact ih _ (not_le.mp h2)

theorem takeClusters_append (per n : Nat) (cls : List (List Cand)) :
    ∀ acc : List Cand, ∃ s, takeClusters per n cls acc = acc ++ s := by
  induction cls with
  | nil => intro acc; exact ⟨[], by simp [takeClusters]⟩
  | cons c rest ih =>
    intro acc
    simp only [takeClusters]
    obtain ⟨s1, hs1⟩ := takeUpTo_append n (c.take per) acc
    by_cases h2 : n ≤ (takeUpTo n (c.take per) acc).length
    · rw [if_pos h2]
      exact ⟨s1, hs1⟩
    · rw [if_neg h2]
      obtain ⟨s2, hs2⟩ := ih (takeUpTo n (c.take per) acc)
      exact ⟨s1 ++ s2, by rw [hs2, hs1, List.append_assoc]⟩

theorem takeUpTo_head (n per : Nat) (d : Cand) (ds : List Cand)
    (acc : List Cand) (_h : acc.length < n) (hper : 1 ≤ per) :
    ∃ s, takeUpTo n ((d :: ds).take per) acc = acc ++ d :: s := by
  have htake : (d :: ds).take per = d :: ds.take (per - 1) := by
    cases per with
    | zero => omega
    | succ k => simp
  rw [htake]
  simp only [takeUpTo]
  by_cases h2 : n ≤ (acc ++ [d]).length
  · rw [if_pos h2]
    exact ⟨[], by simp⟩
  · rw [if_neg h2]
    obtain ⟨s, hs⟩ := takeUpTo_append n (ds.take (per - 1)) (acc ++ [d])
    exact ⟨s, by rw [hs]; simp⟩

theorem takeClusters_coverage (per n : Nat) (hper : 1 ≤ per) :
    ∀ (cls : List (List Cand)) (acc : List Cand),
      (∀ c ∈ cls, c ≠ []) →
      acc.length + (cls.length - 1) * per < n →
      ∀ c ∈ cls, ∃ x ∈ c, x ∈ takeClusters per n cls acc := by
  intro cls
  induction cls with
  | nil => intro acc _ _ c hc; cases hc
  | cons c0 rest ih =>
    intro acc hne hcount c hc
    simp only [List.length_cons, Nat.add_sub_cancel] at hcount
    have hacc_lt : acc.length < n := by
      have h0 : acc.length ≤ acc.length + rest.length * per := Nat.le_add_right _ _
      omega
    obtain ⟨d, ds, rfl⟩ : ∃ d ds, c0 = d :: ds := by
      cases hc0 : c0 with
      | nil => exact absurd hc0 (hne c0 (by simp))
      | cons d ds => exact ⟨d, ds, rfl⟩
    obtain ⟨s1, hs1⟩ := takeUpTo_head n per d ds acc hacc_lt hper
    have htl : ((d :: ds).take per).length ≤ per := by
      rw [List.length_take]
      exact min_le_left _ _
    have hlen := takeUpTo_length_le_add n ((d :: ds).take per) acc
    simp only [takeClusters]
    by_cases hstop : n ≤ (takeUpTo n ((d :: ds).take per) acc).length
    · rw [if_pos hstop]
      have hrest : rest = [] := by
        by_contra hr
        have hrl : 1 ≤ rest.length := List.length_pos.mpr hr
        have h5 : per ≤ rest.length * per := Nat.le_mul_of_pos_left per hrl
        omega
      subst hrest
      have hceq : c = d :: ds := by simpa using hc
      subst hceq
      exact ⟨d, by simp, by rw [hs1]; simp⟩
    · rw [if_neg hstop]
      rcases List.mem_cons.mp hc with rfl | hcr
      · obtain ⟨s2, hs2⟩ :=
          takeClusters_append per n rest (takeUpTo n ((d :: ds).take per) acc)
        exact ⟨d, by simp, by rw [hs2, hs1]; simp⟩
      · apply ih (takeUpTo n ((d :: ds).take per) acc)
          (fun c2 hc2 => hne c2 (by simp [hc2])) ?_ c hcr
        have hnl : ¬ n ≤ (takeUpTo n ((d :: ds).take per) acc).length := hstop
        cases rest with
        | nil => cases hcr
        | cons r rs =>
          have hmul : rs.length * per + per = (rs.length + 1) * per :=
            (Nat.succ_mul rs.length per).symm
          simp only [List.length_cons, Nat.add_sub_cancel] at hcount ⊢
          omega

theorem addToClusters_wf (c : Cand) :
    ∀ gs : List (String × List Cand),
      (∀ td ∈ gs, td.2 ≠ [] ∧ ∀ x ∈ td.2, x.2.document_type = td.1) →
      ∀ td ∈ addToClusters c gs,
        td.2 ≠ [] ∧ ∀ x ∈ td.2, x.2.document_type = td.1 := by
  intro gs
  induction gs with
  | nil =>
    intro _ td htd
    simp only [addToClusters, List.mem_singleton] at htd
    subst htd
    refine ⟨by simp, ?_⟩
    intro x hx
    simp only [List.mem_singleton] at hx
    subst hx
    rfl
  | cons g gs' ih =>
    intro h td htd
    obtain ⟨t0, ds0⟩ := g
    simp only [addToClusters] at htd
    by_cases he : t0 = c.2.document_type
    · rw [if_pos he] at htd
      rcases List.mem_cons.mp htd with rfl | htd2
      · refine ⟨by simp, ?_⟩
        intro x hx
        rcases List.mem_append.mp hx with hx1 | hx2
        · exact (h (t0, ds0) (by simp)).2 x hx1
        · simp only [List.mem_singleton] at hx2
          subst hx2
          exact he.symm
      · exact h td (by simp [htd2])
    · rw [if_neg he] at htd
      rcases List.mem_cons.mp htd with rfl | htd2
      · exact h (t0, ds0) (by simp)
      · exact ih (fun td2 h2 => h td2 (by simp [h2])) td htd2

theorem addToClusters_fst (c : Cand) :
    ∀ gs : List (String × List Cand),
      (addToClusters c gs).map Prod.fst =
        if c.2.document_type ∈ gs.map Prod.fst then gs.map Prod.fst
        else gs.map Prod.fst ++ [c.2.document_type] := by
  intro gs
  induction gs with
  | nil => simp [addToClusters]
  | cons g gs' ih =>
    obtain ⟨t0, ds0⟩ := g
    simp only [addToClusters]
    by_cases he : t0 = c.2.document_type
    · rw [if_pos he]
      simp [he]
    · rw [if_neg he]
      simp only [List.map_cons]
      rw [ih]
      by_cases hm : c.2.document_type ∈ gs'.map Prod.fst
      · rw [if_pos hm, if_pos (by simp [hm])]
      · rw [if_neg hm, if_neg (by
          simp only [List.mem_cons]
          push_neg
          exact ⟨fun hcon => he hcon.symm, hm⟩)]
        simp

theorem foldl_addToClusters_wf (cands : List Cand) :
    ∀ gs : List (String × List Cand),
      (∀ td ∈ gs, td.2 ≠ [] ∧ ∀ x ∈ td.2, x.2.document_type = td.1) →
      ∀ td ∈ cands.foldl (fun gs c => addToClusters c gs) gs,
        td.2 ≠ [] ∧ ∀ x ∈ td.2, x.2.document_type = td.1 := by
  induction cands with
  | nil => intro gs h; exact h
  | cons c cs ih =>
    intro gs h
    exact ih (addToClusters c gs) (addToClusters_wf c gs h)

theorem foldl_addToClusters_fst_mem (cands : List Cand) :
    ∀ (gs : List (String × List Cand)) (t : String),
      (t ∈ (cands.foldl (fun gs c => addToClusters c gs) gs).map Prod.fst ↔
        t ∈ gs.map Prod.fst ∨
          t ∈ cands.map (fun c => c.2.document_type)) := by
  induction cands with
  | nil => intro gs t; simp
  | cons c cs ih =>
    intro gs t
    rw [List.foldl_cons, ih (addToClusters c gs) t]
    have hfst := addToClusters_fst c gs
    by_cases hm : c.2.document_type ∈ gs.map Prod.fst
    · rw [if_pos hm] at hfst
      rw [hfst]
      simp only [List.map_cons, List.mem_cons]
      constructor
      · rintro (h1 | h2)
        · exact Or.inl h1
        · exact Or.inr (Or.inr h2)
      · rintro (h1 | h2 | h3)
        · exact Or.inl h1
        · exact Or.inl (h2 ▸ hm)
        · exact Or.inr h3
    · rw [if_neg hm] at hfst
      rw [hfst]
      simp only [List.mem_append, List.mem_singleton, List.map_cons,
        List.mem_cons]
      tauto

theorem foldl_addToClusters_fst_nodup (cands : List Cand) :
    ∀ gs : List (String × List Cand), (gs.map Prod.fst).Nodup →
      ((cands.foldl (fun gs c => addToClusters c gs) gs).map Prod.fst).Nodup := by
  induction cands with
  | nil => intro gs h; exact h
  | cons c cs ih =>
    intro gs h
    rw [List.foldl_cons]
    apply ih
    rw [addToClusters_fst]
    by_cases hm : c.2.document_type ∈ gs.map Prod.fst
    · rw [if_pos hm]; exact h
    · rw [if_neg hm]
      rw [List.nodup_append]
      exact ⟨h, List.nodup_singleton _, fun a ha hb => by
        simp only [List.mem_singleton] at hb
        exact hm (hb ▸ ha)⟩

theorem groupByType_wf (cands : List Cand) :
    ∀ td ∈ groupByType cands,
      td.2 ≠ [] ∧ ∀ x ∈ td.2, x.2.document_type = td.1 :=
  foldl_addToClusters_wf cands [] (by simp)

theorem groupByType_fst_mem (cands : List Cand) (t : String) :
    t ∈ (groupByType cands).map Prod.fst ↔
      t ∈ cands.map (fun c => c.2.document_type) := by
  simpa using foldl_addToClusters_fst_mem cands [] t

theorem groupByType_fst_nodup (cands : List Cand) :
    ((groupByType cands).map Prod.fst).Nodup :=
  foldl_addToClusters_fst_nodup cands [] (by simp)

theorem groupByType_length (cands : List Cand) :
    (groupByType cands).length =
      ((cands.map (fun c => c.2.document_type)).dedup).length := by
  have h1 : (groupByType cands).length =
      ((groupByType cands).map Prod.fst).length := (List.length_map _ _).symm
  rw [h1]
  have hnd1 := groupByType_fst_nodup cands
  have hnd2 : ((cands.map (fun c => c.2.document_type)).dedup).Nodup :=
    List.nodup_dedup _
  have hset : ((groupByType cands).map Prod.fst).toFinset =
      ((cands.map (fun c => c.2.document_type)).dedup).toFinset := by
    ext t
    rw [List.mem_toFinset, List.mem_toFinset, List.mem_dedup,
      groupByType_fst_mem]
  rw [← List.toFinset_card_of_nodup hnd1, ← List.toFinset_card_of_nodup hnd2,
    hset]

/-- C6 (confirmed).  `cluster_based_retrieval` groups the broad candidate set
(the top `n_results * 3` store entries) by `document_type`, takes up to
`max(1, n_results // cluster_count)` chunks per cluster and stops at
`n_results` total: when the candidate set has `k ≤ n` distinct document
types, the result has at most `n` chunks and contains at least one chunk of
every document type present in the candidate set. -/
theorem c6_cluster_diversity (q : String) (n : Nat) (store : List Cand)
    (hk : (((store.take (n * 3)).map
      (fun c => c.2.document_type)).dedup).length ≤ n) :
    (RAGSystem.cluster_based_retrieval q n (some store)).chunks.length ≤ n ∧
    ∀ t ∈ (store.take (n * 3)).map (fun c => c.2.document_type),
      t ∈ (RAGSystem.cluster_based_retrieval q n (some store)).metadata.map
        (fun mt => mt.document_type) := by
  by_cases hempty : store.take (n * 3) = []
  · constructor
    · simp [RAGSystem.cluster_based_retrieval, hempty]
    · intro t ht
      rw [hempty] at ht
      simp at ht
  · have hcbr : RAGSystem.cluster_based_retrieval q n (some store) =
        ⟨q,
          (takeClusters (max 1 (n / (groupByType (store.take (n * 3))).length))
            n ((groupByType (store.take (n * 3))).map Prod.snd) []).map
            Prod.fst,
          (takeClusters (max 1 (n / (groupByType (store.take (n * 3))).length))
            n ((groupByType (store.take (n * 3))).map Prod.snd) []).map
            Prod.snd,
          none,
          some ((groupByType (store.take (n * 3))).map
            (fun g => (g.1, g.2.length))),
          some "preserved"⟩ := by
      simp [RAGSystem.cluster_based_retrieval, hempty]
    have hkeq := groupByType_length (store.take (n * 3))
    have hk2 : (groupByType (store.take (n * 3))).length ≤ n := by
      rw [hkeq]; exact hk
    have hkpos : 1 ≤ (groupByType (store.take (n * 3))).length := by
      obtain ⟨c, hc⟩ := List.exists_mem_of_ne_nil _ hempty
      have hmem : c.2.document_type ∈
          (groupByType (store.take (n * 3))).map Prod.fst :=
        (groupByType_fst_mem _ _).mpr (List.mem_map.mpr ⟨c, hc, rfl⟩)
      have h3 : groupByType (store.take (n * 3)) ≠ [] := by
        intro hcon
        rw [hcon] at hmem
        simp at hmem
      exact List.length_pos.mpr h3
    have hnpos : 1 ≤ n := le_trans hkpos hk2
    have hdiv : 1 ≤ n / (groupByType (store.take (n * 3))).length :=
      (Nat.one_le_div_iff (by omega)).mpr hk2
    have hper : max 1 (n / (groupByType (store.take (n * 3))).length) =
        n / (groupByType (store.take (n * 3))).length := max_eq_right hdiv
    have hmul : (n / (groupByType (store.take (n * 3))).length) *
        (groupByType (store.take (n * 3))).length ≤ n :=
      Nat.div_mul_le_self n _
    have harith : ((groupByType (store.take (n * 3))).length - 1) *
        (n / (groupByType (store.take (n * 3))).length) < n := by
      have hq : ((groupByType (store.take (n * 3))).length - 1) *
          (n / (groupByType (store.take (n * 3))).length) +
          (n / (groupByType (store.take (n * 3))).length) =
          (groupByType (store.take (n * 3))).length *
          (n / (groupByType (store.take (n * 3))).length) := by
        have h5 : (groupByType (store.take (n * 3))).length - 1 + 1 =
            (groupByType (store.take (n * 3))).length := by omega
        rw [← h5, Nat.succ_mul, h5]
      have h6 : (groupByType (store.take (n * 3))).length *
          (n / (groupByType (store.take (n * 3))).length) ≤ n := by
        rw [Nat.mul_comm]; exact hmul
      omega
    rw [hcbr]
    constructor
    · show ((takeClusters _ n _ []).map Prod.fst).length ≤ n
      rw [List.length_map]
      exact takeClusters_length_le _ n _ [] (by simpa using hnpos)
    · intro t ht
      have hmem : t ∈ (groupByType (store.take (n * 3))).map Prod.fst :=
        (groupByType_fst_mem _ _).mpr ht
      obtain ⟨td, htd, hfst⟩ := List.mem_map.mp hmem
      have hwf := groupByType_wf _ td htd
      have hsnd : td.2 ∈ (groupByType (store.take (n * 3))).map Prod.snd :=
        List.mem_map.mpr ⟨td, htd, rfl⟩
      have hcov := takeClusters_coverage
        (max 1 (n / (groupByType (store.take (n * 3))).length)) n
        (le_max_left _ _) ((groupByType (store.take (n * 3))).map Prod.snd) []
        (fun c2 hc2 => by
          obtain ⟨td2, htd2, heq2⟩ := List.mem_map.mp hc2
          exact heq2 ▸ (groupByType_wf _ td2 htd2).1)
        (by
          simp only [List.length_nil, List.length_map, Nat.zero_add]
          rw [hper]
          exact harith)
        td.2 hsnd
      obtain ⟨x, hx1, hx2⟩ := hcov
      show t ∈ ((takeClusters _ n _ []).map Prod.snd).map
        (fun mt => mt.document_type)
      refine List.mem_map.mpr ⟨x.2, List.mem_map.mpr ⟨x, hx2, rfl⟩, ?_⟩
      rw [hwf.2 x hx1, hfst]

/-- Witness for C6: two candidates of distinct document types with
`n_results = 2` — both types appear in the result. -/
theorem c6_cluster_diversity_witness :
    "resume" ∈ (RAGSystem.cluster_based_retrieval "q" 2
      (some [(['a'], sampleMeta "f" "h" "resume" true),
        (['b'], sampleMeta "g" "h" "code" true)])).metadata.map
      (fun mt => mt.document_type) :=
  (c6_cluster_diversity "q" 2
    [(['a'], sampleMeta "f" "h" "resume" true),
      (['b'], sampleMeta "g" "h" "code" true)] (by decide)).2 "resume"
    (by decide)

/-- C5 (confirmed).  `multi_stage_query` scores every candidate as
base `1.0`, `+0.5` for original content, `+0.3` for a resume/experience/skills
query hitting a resume/cv candidate, `+0.1` for ingestion within the last 30
days; sorts descending with ties preserving store order (Python's stable
sort); truncates to `final_results`; and consequently an original-content
candidate never ranks below an otherwise-identical unflagged one. -/
theorem c5_multi_stage_ranking (q : String) (now : ℚ) (store : List Cand)
    (initial finalResults : Nat) :
    (∀ (d : List Char) (m : ChunkMeta),
      RAGSystem.calculate_relevance_score d m q now =
        1 + (if m.is_original_content then (1 : ℚ) / 2 else 0) +
          (if queryKeywordHit q ∧ (lowerStr m.document_type = "resume" ∨
              lowerStr m.document_type = "cv") then (3 : ℚ) / 10 else 0) +
          (if 0 < m.ingestion_time ∧
              (now - m.ingestion_time) / (24 * 3600) < 30
           then (1 : ℚ) / 10 else 0)) ∧
    ((RAGSystem.multi_stage_query q initial finalResults now
        (some store)).chunks =
      (msTop q now initial finalResults store).map (fun r => r.2.1)) ∧
    (msSorted q now initial store).Pairwise (fun a b => b.1 ≤ a.1) ∧
    (∀ s : ℚ, (msSorted q now initial store).filter (fun p => p.1 = s) =
      (scoredOf q now (store.take initial)).filter (fun p => p.1 = s)) ∧
    (∀ (d : List Char) (m : ChunkMeta) (i j : Nat)
      (hi : i < (msTop q now initial finalResults store).length)
      (hj : j < (msTop q now initial finalResults store).length), i < j →
      ((msTop q now initial finalResults store).get ⟨i, hi⟩).2 =
        (d, setOriginal m false) →
      ((msTop q now initial finalResults store).get ⟨j, hj⟩).2 =
        (d, setOriginal m true) → False) ∧
    (∀ (d : List Char) (m : ChunkMeta),
      (d, setOriginal m true) ∈ store.take initial →
      (d, setOriginal m false) ∈
        (msTop q now initial finalResults store).map (fun r => r.2) →
      (d, setOriginal m true) ∈
        (msTop q now initial finalResults store).map (fun r => r.2)) := by
  refine ⟨fun d m => rfl, ?_, sortDescBy_pairwise Prod.fst _,
    fun s => sortDescBy_filter_key Prod.fst _ s, ?_, ?_⟩
  · unfold RAGSystem.multi_stage_query msTop msSorted
    by_cases h : store.take initial = [] <;> simp [h, scoredOf, sortDescBy]
  · intro d m i j hi hj hij hgi hgj
    have hsub : (msTop q now initial finalResults store).Sublist
        (msSorted q now initial store) := List.take_sublist _ _
    have hpw : (msTop q now initial finalResults store).Pairwise
        (fun a b => b.1 ≤ a.1) :=
      (sortDescBy_pairwise Prod.fst _).sublist hsub
    have hle := List.pairwise_iff_getElem.mp hpw i j hi hj hij
    have hgi2 : ((msTop q now initial finalResults store)[i]).2 =
        (d, setOriginal m false) := hgi
    have hgj2 : ((msTop q now initial finalResults store)[j]).2 =
        (d, setOriginal m true) := hgj
    have hmi : (msTop q now initial finalResults store)[i] ∈
        scoredOf q now (store.take initial) :=
      (sortDescBy_perm Prod.fst _).mem_iff.mp
        (hsub.subset (List.getElem_mem hi))
    have hmj : (msTop q now initial finalResults store)[j] ∈
        scoredOf q now (store.take initial) :=
      (sortDescBy_perm Prod.fst _).mem_iff.mp
        (hsub.subset (List.getElem_mem hj))
    have h1 := scoredOf_fst q now (store.take initial) _ hmi
    have h2 := scoredOf_fst q now (store.take initial) _ hmj
    rw [hgi2] at h1
    rw [hgj2] at h2
    rw [h1, h2] at hle
    have hs := score_setOriginal d m q now
    simp only [] at hle hs
    linarith
  · intro d m htrue hfalse
    obtain ⟨p, hp, hp2⟩ := List.mem_map.mp hfalse
    obtain ⟨jj, hjjlen, hjjeq⟩ := List.mem_iff_getElem.mp hp
    have hjfin : jj < finalResults := by
      have h0 := hjjlen
      simp only [msTop, List.length_take, lt_min_iff] at h0
      exact h0.1
    have hjs : jj < (msSorted q now initial store).length := by
      have h0 := hjjlen
      simp only [msTop, List.length_take, lt_min_iff] at h0
      exact h0.2
    have hjj : (msSorted q now initial store)[jj] = p := by
      rw [← hjjeq]
      simp [msTop, List.getElem_take]
    have hft : ((RAGSystem.calculate_relevance_score d (setOriginal m true) q
        now, ((d, setOriginal m true) : Cand)) : ℚ × Cand) ∈
        scoredOf q now (store.take initial) :=
      List.mem_map.mpr ⟨(d, setOriginal m true), htrue, rfl⟩
    have hfs : ((RAGSystem.calculate_relevance_score d (setOriginal m true) q
        now, ((d, setOriginal m true) : Cand)) : ℚ × Cand) ∈
        msSorted q now initial store :=
      (sortDescBy_perm Prod.fst _).mem_iff.mpr hft
    obtain ⟨ii, hiilen, hiieq⟩ := List.mem_iff_getElem.mp hfs
    have hii_lt : ii < jj := by
      by_contra hcon
      push_neg at hcon
      rcases eq_or_lt_of_le hcon with heq | hlt
      · subst heq
        have hpe : p = (RAGSystem.calculate_relevance_score d
            (setOriginal m true) q now, ((d, setOriginal m true) : Cand)) := by
          rw [← hjj]
          exact hiieq
        rw [hpe] at hp2
        simp [setOriginal] at hp2
      · have hpair : (msSorted q now initial store).Pairwise
            (fun a b => b.1 ≤ a.1) := sortDescBy_pairwise Prod.fst _
        have hle := List.pairwise_iff_getElem.mp hpair jj ii hjs hiilen hlt
        have hp_in : p ∈ msSorted q now initial store :=
          (List.take_sublist _ _).subset hp
        have hp1 := scoredOf_fst q now (store.take initial) p
          ((sortDescBy_perm Prod.fst _).mem_iff.mp hp_in)
        rw [hp2] at hp1
        rw [hiieq, hjj, hp1] at hle
        have hs := score_setOriginal d m q now
        simp only [] at hle hs
        linarith
    have hiitake : ii < (msTop q now initial finalResults store).length := by
      simp only [msTop, List.length_take, lt_min_iff]
      exact ⟨lt_trans hii_lt hjfin, hiilen⟩
    have hgetii : (msTop q now initial finalResults store)[ii] =
        (RAGSystem.calculate_relevance_score d (setOriginal m true) q now,
          ((d, setOriginal m true) : Cand)) := by
      rw [← hiieq]
      simp [msTop, List.getElem_take]
    exact List.mem_map.mpr
      ⟨(RAGSystem.calculate_relevance_score d (setOriginal m true) q now,
          ((d, setOriginal m true) : Cand)),
        hgetii ▸ List.getElem_mem hiitake, rfl⟩

-- sanity checks
example : sortDescBy id [(1 : ℚ), 3, 2, 3] = [3, 3, 2, 1] := by decide

/-- Witness for C5: with one flagged and one unflagged twin in the store, the
flagged twin appears in the final ranked list (ahead of the unflagged one). -/
theorem c5_multi_stage_ranking_witness :
    (['a'], setOriginal (sampleMeta "f" "h" "resume" false) true) ∈
      (msTop "x" 0 20 5
        [(['a'], setOriginal (sampleMeta "f" "h" "resume" false) false),
         (['a'], setOriginal (sampleMeta "f" "h" "resume" false) true)]).map
        (fun r => r.2) :=
  (c5_multi_stage_ranking "x" 0
    [(['a'], setOriginal (sampleMeta "f" "h" "resume" false) false),
     (['a'], setOriginal (sampleMeta "f" "h" "resume" false) true)] 20
    5).2.2.2.2.2 ['a'] (sampleMeta "f" "h" "resume" false) (by decide)
    (by norm_num [msTop, msSorted, scoredOf, sortDescBy, insertDescBy,
      setOriginal, sampleMeta, RAGSystem.calculate_relevance_score,
      queryKeywordHit, containsSub, isStartOf, lowerStr])

theorem fallback_ite_ne_nil (l : List (List Char)) (t : List Char) :
    (if l = [] then [t] else l) ≠ [] := by
  split <;> simp_all

/-- C2 (corrected).  `SemanticChunker.chunk_text` and
`CodeAwareChunker.chunk_text` end in an `or [text]` fallback and therefore
always return a non-empty chunk list; `DefaultChunker.chunk_text` returns the
single chunk `[text]` whenever the text is no longer than `chunk_size`.  (For
whitespace-only text longer than `chunk_size` the default chunker returns the
empty list: see the counterexample.) -/
theorem c2_chunkers_nonempty (fuel mn mx mxc : Nat) (cs ov : Int)
    (t : List Char) :
    SemanticChunker.chunk_text fuel mn mx t ≠ [] ∧
    CodeAwareChunker.chunk_text mxc t ≠ [] ∧
    ((t.length : Int) ≤ cs → DefaultChunker.chunk_text fuel cs ov t = [t]) := by
  refine ⟨?_, ?_, ?_⟩
  · exact fallback_ite_ne_nil _ _
  · exact fallback_ite_ne_nil _ _
  · intro h
    unfold DefaultChunker.chunk_text
    rw [if_pos h]

/-- Witness for C2 at a concrete input. -/
theorem c2_chunkers_nonempty_witness :
    DefaultChunker.chunk_text 5 10 2 "abc".data = ["abc".data] :=
  (c2_chunkers_nonempty 5 0 0 0 10 2 "abc".data).2.2 (by decide)

/-- C2 counterexample: a whitespace-only text longer than `chunk_size` makes
`DefaultChunker.chunk_text` (which has no `[text]` fallback) return the empty
list — every stripped window is empty and is dropped. -/
theorem c2_counterexample :
    DefaultChunker.chunk_text 20 4 1 (List.replicate 10 ' ') = [] ∧
    4 < (List.replicate 10 ' ').length := by
  exact ⟨by decide, by decide⟩

/-- C3 (confirmed).  If the store already holds a chunk whose `filename` and
strong `source_file_hash` match the incoming file, `ingest_document` hits the
`_is_duplicate` early return: it reports success and leaves the store
untouched (no delete, no insert). -/
theorem c3_ingest_idempotent (sha256 md5Pre : List Char → String) (fuel : Nat)
    (ck : Chunker) (store : List StoreRec) (fn docType : String) (now : ℚ)
    (content : List Char) (hblank : pyStrip content ≠ [])
    (hdup : DocumentIngester.is_duplicate store fn (sha256 content) = true) :
    DocumentIngester.ingest_document sha256 md5Pre fuel ck store fn docType now
      content = (true, store) := by
  unfold DocumentIngester.ingest_document
  rw [if_neg (by simpa using hblank)]
  simp only [hdup, if_pos]

/-- Witness for C3: re-ingesting `doc.txt` with unchanged content returns
`True` and the store is exactly unchanged. -/
theorem c3_ingest_idempotent_witness :
    DocumentIngester.ingest_document (fun c => String.mk c) (fun _ => "h") 9
      (.defaultC 500 50) c3store "doc.txt" "document" 2 "hello".data =
      (true, c3store) :=
  c3_ingest_idempotent _ _ _ _ _ _ _ _ _ (by decide) (by decide)

/-- C7 (corrected).  `query`, `multi_stage_query` and `personalized_query`
return `source_integrity = "preserved"` on every non-exception path (including
empty results) and `"error"` when the store call raises; but
`cluster_based_retrieval` omits the `source_integrity` key on both its
empty-result path and its exception path, reporting it only on the successful
non-empty path.  All four modes are pure functions of the store snapshot. -/
theorem c7_source_integrity (q : String) (n initial finalResults : Nat)
    (now : ℚ) (pr : Bool) (rankedStore : Option (List Cand)) :
    (RAGSystem.query q n rankedStore).source_integrity =
      (match rankedStore with
       | none => some "error"
       | some _ => some "preserved") ∧
    (RAGSystem.multi_stage_query q initial finalResults now
        rankedStore).source_integrity =
      (match rankedStore with
       | none => some "error"
       | some _ => some "preserved") ∧
    (RAGSystem.personalized_query q n pr rankedStore).source_integrity =
      (match rankedStore with
       | none => some "error"
       | some _ => some "preserved") ∧
    (RAGSystem.cluster_based_retrieval q n rankedStore).source_integrity =
      (match rankedStore with
       | none => none
       | some store => if store.take (n * 3) = [] then none else some "preserved") := by
  cases rankedStore with
  | none => exact ⟨rfl, rfl, rfl, rfl⟩
  | some store =>
    refine ⟨rfl, ?_, ?_, ?_⟩
    · simp only [RAGSystem.multi_stage_query]
      split <;> rfl
    · simp only [RAGSystem.personalized_query]
      split <;> rfl
    · by_cases h : store.take (n * 3) = [] <;>
        simp [RAGSystem.cluster_based_retrieval, h]

/-- C7 counterexample: on the empty-result path and on the exception path,
`cluster_based_retrieval` returns a dict with no `source_integrity` key at
all (neither `"preserved"` nor `"error"`). -/
theorem c7_counterexample :
    (RAGSystem.cluster_based_retrieval "q" 5 (some [])).source_integrity = none ∧
    (RAGSystem.cluster_based_retrieval "q" 5 none).source_integrity = none :=
  ⟨rfl, rfl⟩

theorem remove_existing_not_fn (store : List StoreRec) (fn : String) :
    ∀ r ∈ DocumentIngester.remove_existing_document store fn,
      r.meta.filename ≠ fn := by
  intro r hr hfn
  simp only [DocumentIngester.remove_existing_document, List.mem_filter] at hr
  obtain ⟨hmem, hkeep⟩ := hr
  have hin : r.id ∈ store.filterMap
      (fun r => if r.meta.filename = fn then some r.id else none) :=
    List.mem_filterMap.mpr ⟨r, hmem, by simp [hfn]⟩
  simp [hin] at hkeep

theorem remove_existing_filter_fn (store : List StoreRec) (fn : String) :
    (DocumentIngester.remove_existing_document store fn).filter
      (fun r => r.meta.filename = fn) = [] := by
  apply List.filter_eq_nil_iff.mpr
  intro r hr
  simpa using remove_existing_not_fn store fn r hr

theorem remove_existing_eq_filter (store : List StoreRec) (fn : String)
    (hnodup : (store.map StoreRec.id).Nodup) :
    DocumentIngester.remove_existing_document store fn =
      store.filter (fun r => r.meta.filename ≠ fn) := by
  unfold DocumentIngester.remove_existing_document
  apply List.filter_congr
  intro r hr
  by_cases hf : r.meta.filename = fn
  · have hin : r.id ∈ store.filterMap
        (fun r => if r.meta.filename = fn then some r.id else none) :=
      List.mem_filterMap.mpr ⟨r, hr, by simp [hf]⟩
    simp [hin, hf]
  · have hout : r.id ∉ store.filterMap
        (fun r => if r.meta.filename = fn then some r.id else none) := by
      intro hin
      obtain ⟨r', hr', hif⟩ := List.mem_filterMap.mp hin
      by_cases hf' : r'.meta.filename = fn
      · rw [if_pos hf'] at hif
        have hid : r'.id = r.id := by simpa using hif
        have : r' = r :=
          List.inj_on_of_nodup_map hnodup hr' hr hid
        exact hf (this ▸ hf')
      · rw [if_neg hf'] at hif
        exact Option.noConfusion hif
    simp [hout, hf]

theorem mkRecords_meta (md5Pre : List Char → String) (ck : Chunker)
    (fn : String) (dm : DocMeta) (chunks : List (List Char)) :
    ∀ r ∈ DocumentIngester.mkRecords md5Pre ck fn dm chunks,
      r.meta.filename = dm.filename ∧
      r.meta.source_file_hash = dm.source_file_hash ∧
      r.meta.chunk_count = chunks.length := by
  intro r hr
  simp only [DocumentIngester.mkRecords, List.mem_map] at hr
  obtain ⟨ic, _, rfl⟩ := hr
  exact ⟨rfl, rfl, rfl⟩

theorem mkRecords_indices (md5Pre : List Char → String) (ck : Chunker)
    (fn : String) (dm : DocMeta) (chunks : List (List Char)) :
    (DocumentIngester.mkRecords md5Pre ck fn dm chunks).map
      (fun r => r.meta.chunk_index) = List.range chunks.length := by
  simp only [DocumentIngester.mkRecords, List.map_map]
  exact List.enum_map_fst chunks

/-- Unfolding of `ingest_document` on the supersede path: non-blank content,
no duplicate, non-empty chunk list. -/
theorem ingest_document_supersede (sha256 md5Pre : List Char → String)
    (fuel : Nat) (ck : Chunker) (store : List StoreRec) (fn docType : String)
    (now : ℚ) (content : List Char) (hblank : pyStrip content ≠ [])
    (hdup : DocumentIngester.is_duplicate store fn (sha256 content) = false)
    (hch : ck.chunkText fuel content ≠ []) :
    DocumentIngester.ingest_document sha256 md5Pre fuel ck store fn docType now
      content =
      (true, DocumentIngester.remove_existing_document store fn ++
        DocumentIngester.mkRecords md5Pre ck fn
          ⟨fn, sha256 content, true, docType, now⟩ (ck.chunkText fuel content)) := by
  unfold DocumentIngester.ingest_document
  simp [hblank, hdup, hch]

/-- Unfolding of `ingest_document` when the chunker returns no chunks: the old
chunks are already deleted and the ingestion reports failure. -/
theorem ingest_document_nochunks (sha256 md5Pre : List Char → String)
    (fuel : Nat) (ck : Chunker) (store : List StoreRec) (fn docType : String)
    (now : ℚ) (content : List Char) (hblank : pyStrip content ≠ [])
    (hdup : DocumentIngester.is_duplicate store fn (sha256 content) = false)
    (hch : ck.chunkText fuel content = []) :
    DocumentIngester.ingest_document sha256 md5Pre fuel ck store fn docType now
      content = (false, DocumentIngester.remove_existing_document store fn) := by
  unfold DocumentIngester.ingest_document
  simp [hblank, hdup, hch]

theorem is_duplicate_false_of_hash_change (sha256 : List Char → String)
    (store : List StoreRec) (fn : String) (content : List Char)
    (hdiff : ∀ r ∈ store, r.meta.filename = fn →
      r.meta.source_file_hash ≠ sha256 content) :
    DocumentIngester.is_duplicate store fn (sha256 content) = false := by
  cases h : DocumentIngester.is_duplicate store fn (sha256 content) with
  | false => rfl
  | true =>
    exfalso
    obtain ⟨r, hr, hp1, hp2⟩ :
        ∃ r ∈ store, r.meta.filename = fn ∧
          r.meta.source_file_hash = sha256 content := by
      simpa [DocumentIngester.is_duplicate, List.any_eq_true] using h
    exact hdiff r hr hp1 hp2

/-- C4 (corrected).  Re-ingesting a filename already present in the store with
content whose strong hash differs from every stored chunk of that filename
yields a store whose chunks for that filename are exactly the records derived
from the new content — all prior chunks for the filename are deleted and all
records of other filenames are untouched.  (An old chunk-id *string* can
still be present when the new content reproduces the same chunk text at the
same index, because chunk ids are deterministic in `(filename, index, chunk
text)`: see the counterexample.)  The precondition that store ids are distinct
is the vector store's own id-uniqueness guarantee. -/
theorem c4_change_detection_supersedes (sha256 md5Pre : List Char → String)
    (fuel : Nat) (ck : Chunker) (store : List StoreRec) (fn docType : String)
    (now : ℚ) (content : List Char) (hblank : pyStrip content ≠ [])
    (_hpresent : ∃ r ∈ store, r.meta.filename = fn)
    (hdiff : ∀ r ∈ store, r.meta.filename = fn →
      r.meta.source_file_hash ≠ sha256 content)
    (hnodup : (store.map StoreRec.id).Nodup) :
    ((DocumentIngester.ingest_document sha256 md5Pre fuel ck store fn docType
        now content).2.filter (fun r => r.meta.filename = fn) =
      DocumentIngester.mkRecords md5Pre ck fn
        ⟨fn, sha256 content, true, docType, now⟩ (ck.chunkText fuel content)) ∧
    ((DocumentIngester.ingest_document sha256 md5Pre fuel ck store fn docType
        now content).2.filter (fun r => r.meta.filename ≠ fn) =
      store.filter (fun r => r.meta.filename ≠ fn)) := by
  have hdup := is_duplicate_false_of_hash_change sha256 store fn content hdiff
  have hrecs_fn : ∀ r ∈ DocumentIngester.mkRecords md5Pre ck fn
      ⟨fn, sha256 content, true, docType, now⟩ (ck.chunkText fuel content),
      r.meta.filename = fn := by
    intro r hr
    exact (mkRecords_meta md5Pre ck fn _ _ r hr).1
  by_cases hch : ck.chunkText fuel content = []
  · rw [ingest_document_nochunks sha256 md5Pre fuel ck store fn docType now
      content hblank hdup hch]
    constructor
    · rw [remove_existing_filter_fn, hch]
      rfl
    · rw [remove_existing_eq_filter store fn hnodup, List.filter_filter]
      apply List.filter_congr
      intro r _
      simp
  · rw [ingest_document_supersede sha256 md5Pre fuel ck store fn docType now
      content hblank hdup hch]
    constructor
    · rw [List.filter_append, remove_existing_filter_fn, List.nil_append]
      apply List.filter_eq_self.mpr
      intro r hr
      simpa using hrecs_fn r hr
    · rw [List.filter_append, remove_existing_eq_filter store fn hnodup,
        List.filter_filter]
      have h1 : (DocumentIngester.mkRecords md5Pre ck fn
          ⟨fn, sha256 content, true, docType, now⟩
          (ck.chunkText fuel content)).filter
          (fun r => r.meta.filename ≠ fn) = [] := by
        apply List.filter_eq_nil_iff.mpr
        intro r hr
        simpa using hrecs_fn r hr
      rw [h1, List.append_nil]
      apply List.filter_congr
      intro r _
      simp

/-- Witness for C4: re-ingesting `f.txt` with changed content replaces its
chunk set and touches nothing else. -/
theorem c4_change_detection_supersedes_witness :
    ((DocumentIngester.ingest_document (fun c => String.mk c) (fun _ => "m") 9
        (.defaultC 500 50) c4oldStore "f.txt" "document" 2
        "hello".data).2.filter (fun r => r.meta.filename = "f.txt") =
      DocumentIngester.mkRecords (fun _ => "m") (.defaultC 500 50) "f.txt"
        ⟨"f.txt", String.mk "hello".data, true, "document", 2⟩
        (Chunker.chunkText 9 (.defaultC 500 50) "hello".data)) ∧
    ((DocumentIngester.ingest_document (fun c => String.mk c) (fun _ => "m") 9
        (.defaultC 500 50) c4oldStore "f.txt" "document" 2
        "hello".data).2.filter (fun r => r.meta.filename ≠ "f.txt") =
      c4oldStore.filter (fun r => r.meta.filename ≠ "f.txt")) :=
  c4_change_detection_supersedes (fun c => String.mk c) (fun _ => "m") 9
    (.defaultC 500 50) c4oldStore "f.txt" "document" 2 "hello".data
    (by decide) (by decide) (by decide) (by decide)

/-- C4 counterexample to "none of the old chunk ids are still present": with
deterministic chunk ids derived from `(filename, index, chunk text)`, changing
the content from `"ab"` to `"abc"` (different strong hash) keeps the first
chunk text `"ab"` at index 0, so the old chunk id reappears verbatim in the
new chunk set and is still queryable. -/
theorem c4_counterexample :
    ("f.txt_chunk_0_m" ∈ (DocumentIngester.ingest_document
        (fun c => String.mk c) (fun _ => "m") 9 (.defaultC 2 0) c4idStore
        "f.txt" "document" 2 "abc".data).2.map StoreRec.id) ∧
    String.mk "abc".data ≠ "ab" := by
  exact ⟨by decide, by decide⟩

/-- C9 (confirmed).  After a successful (non-duplicate) ingestion, the stored
chunks for the filename have `chunk_index` exactly `0 .. chunk_count - 1` in
order, and every chunk written by the ingestion carries the same
`chunk_count` (the number of chunks) and the same `source_file_hash` (the
strong hash of the ingested content). -/
theorem c9_chunk_invariants (sha256 md5Pre : List Char → String) (fuel : Nat)
    (ck : Chunker) (store : List StoreRec) (fn docType : String) (now : ℚ)
    (content : List Char) (hblank : pyStrip content ≠ [])
    (hdup : DocumentIngester.is_duplicate store fn (sha256 content) = false)
    (hch : ck.chunkText fuel content ≠ []) :
    (DocumentIngester.ingest_document sha256 md5Pre fuel ck store fn docType
      now content).1 = true ∧
    ((DocumentIngester.ingest_document sha256 md5Pre fuel ck store fn docType
        now content).2.filter (fun r => r.meta.filename = fn)).map
      (fun r => r.meta.chunk_index) =
      List.range (ck.chunkText fuel content).length ∧
    ∀ r ∈ (DocumentIngester.ingest_document sha256 md5Pre fuel ck store fn
        docType now content).2.filter (fun r => r.meta.filename = fn),
      r.meta.chunk_count = (ck.chunkText fuel content).length ∧
      r.meta.source_file_hash = sha256 content := by
  rw [ingest_document_supersede sha256 md5Pre fuel ck store fn docType now
    content hblank hdup hch]
  have hfil : (DocumentIngester.remove_existing_document store fn ++
      DocumentIngester.mkRecords md5Pre ck fn
        ⟨fn, sha256 content, true, docType, now⟩
        (ck.chunkText fuel content)).filter (fun r => r.meta.filename = fn) =
      DocumentIngester.mkRecords md5Pre ck fn
        ⟨fn, sha256 content, true, docType, now⟩ (ck.chunkText fuel content) := by
    rw [List.filter_append, remove_existing_filter_fn, List.nil_append]
    apply List.filter_eq_self.mpr
    intro r hr
    simpa using (mkRecords_meta md5Pre ck fn _ _ r hr).1
  refine ⟨rfl, ?_, ?_⟩
  · rw [hfil, mkRecords_indices]
  · intro r hr
    rw [hfil] at hr
    exact ⟨(mkRecords_meta md5Pre ck fn _ _ r hr).2.2,
      (mkRecords_meta md5Pre ck fn _ _ r hr).2.1⟩

/-- Witness for C9: ingesting `hi.txt` into an empty store. -/
theorem c9_chunk_invariants_witness :
    ((DocumentIngester.ingest_document (fun c => String.mk c) (fun _ => "m") 9
        (.defaultC 500 50) [] "hi.txt" "document" 2 "hi".data).2.filter
        (fun r => r.meta.filename = "hi.txt")).map (fun r => r.meta.chunk_index)
      = List.range (Chunker.chunkText 9 (.defaultC 500 50) "hi".data).length :=
  (c9_chunk_invariants (fun c => String.mk c) (fun _ => "m") 9
    (.defaultC 500 50) [] "hi.txt" "document" 2 "hi".data
    (by decide) (by decide) (by decide)).2.1

theorem codeLoop_eq_groups (maxS : Nat) (lines : List (List Char)) :
    ∀ (cur : List (List Char)) (size : Nat) (chunks : List (List Char)),
    codeLoop maxS lines cur size chunks =
      chunks ++ (codeGroups maxS lines cur size).map joinLines := by
  induction lines with
  | nil =>
    intro cur size chunks
    by_cases h : cur = [] <;> simp [codeLoop, codeGroups, h]
  | cons l ls ih =>
    intro cur size chunks
    by_cases h : size + (l.length + 1) > maxS ∧ cur ≠ [] ∧ isDefLine l <;>
      simp [codeLoop, codeGroups, h, ih]

theorem codeGroups_flatten (maxS : Nat) (lines : List (List Char)) :
    ∀ (cur : List (List Char)) (size : Nat),
    (codeGroups maxS lines cur size).flatten = cur ++ lines := by
  induction lines with
  | nil =>
    intro cur size
    by_cases h : cur = [] <;> simp [codeGroups, h]
  | cons l ls ih =>
    intro cur size
    by_cases h : size + (l.length + 1) > maxS ∧ cur ≠ [] ∧ isDefLine l <;>
      simp [codeGroups, h, ih]

theorem codeGroups_ne_nil (maxS : Nat) (lines : List (List Char)) :
    ∀ (cur : List (List Char)) (size : Nat), cur ≠ [] →
    ∀ g ∈ codeGroups maxS lines cur size, g ≠ [] := by
  induction lines with
  | nil =>
    intro cur size hcur g hg
    simp only [codeGroups, if_neg hcur, List.mem_singleton] at hg
    simpa [hg] using hcur
  | cons l ls ih =>
    intro cur size hcur g hg
    by_cases h : size + (l.length + 1) > maxS ∧ cur ≠ [] ∧ isDefLine l
    · simp only [codeGroups, if_pos h, List.mem_cons] at hg
      rcases hg with rfl | hg
      · exact hcur
      · exact ih [l] _ (by simp) g hg
    · simp only [codeGroups, if_neg h] at hg
      exact ih (cur ++ [l]) _ (by simp) g hg

theorem codeGroups_nil_ne_nil (maxS : Nat) (lines : List (List Char))
    (size : Nat) : ∀ g ∈ codeGroups maxS lines [] size, g ≠ [] := by
  cases lines with
  | nil => simp [codeGroups]
  | cons l ls =>
    intro g hg
    simp only [codeGroups, ne_eq, not_true_eq_false, false_and, and_false,
      if_false] at hg
    exact codeGroups_ne_nil maxS ls [l] _ (by simp) g hg

theorem joinLines_cons_ne (l : List Char) (g : List (List Char)) (h : g ≠ []) :
    joinLines (l :: g) = l ++ '\n' :: joinLines g := by
  cases g with
  | nil => exact absurd rfl h
  | cons g' gs => rfl

theorem joinLines_append (a b : List (List Char)) (ha : a ≠ []) (hb : b ≠ []) :
    joinLines (a ++ b) = joinLines a ++ '\n' :: joinLines b := by
  induction a with
  | nil => exact absurd rfl ha
  | cons x xs ih =>
    cases xs with
    | nil =>
      cases b with
      | nil => exact absurd rfl hb
      | cons y bs => simp [joinLines]
    | cons x2 xs2 =>
      have h1 : (x :: x2 :: xs2) ++ b = x :: ((x2 :: xs2) ++ b) := rfl
      rw [h1, joinLines_cons_ne x ((x2 :: xs2) ++ b) (by simp),
        ih (by simp) , joinLines_cons_ne x (x2 :: xs2) (by simp)]
      simp

theorem joinLines_map (gs : List (List (List Char))) (h : ∀ g ∈ gs, g ≠ []) :
    joinLines (gs.map joinLines) = joinLines gs.flatten := by
  induction gs with
  | nil => rfl
  | cons g gs' ih =>
    cases gs' with
    | nil => simp [joinLines]
    | cons g2 gs'' =>
      have hg : g ≠ [] := h g (by simp)
      have hflat : (g2 :: gs'').flatten ≠ [] := by
        have : g2 ≠ [] := h g2 (by simp)
        cases g2 with
        | nil => exact absurd rfl this
        | cons y ys => simp [List.flatten]
      rw [List.map_cons,
        joinLines_cons_ne (joinLines g) ((g2 :: gs'').map joinLines) (by simp),
        ih (fun g' hg' => h g' (by simp [hg'])),
        show List.flatten (g :: g2 :: gs'') = g ++ List.flatten (g2 :: gs'') from rfl,
        joinLines_append g (g2 :: gs'').flatten hg hflat]

theorem splitNl_ne_nil (t : List Char) : splitNl t ≠ [] := by
  cases t with
  | nil => simp [splitNl]
  | cons c cs =>
    simp only [splitNl]
    split
    · simp
    · cases h : splitNl cs <;> simp

theorem joinLines_splitNl (t : List Char) : joinLines (splitNl t) = t := by
  induction t with
  | nil => rfl
  | cons c cs ih =>
    by_cases hc : c = '\n'
    · subst hc
      have h0 : splitNl ('\n' :: cs) = [] :: splitNl cs := by
        simp [splitNl]
      rw [h0, joinLines_cons_ne [] (splitNl cs) (splitNl_ne_nil cs), ih]
      rfl
    · obtain ⟨g, gs, hsplit⟩ : ∃ g gs, splitNl cs = g :: gs := by
        cases h : splitNl cs with
        | nil => exact absurd h (splitNl_ne_nil cs)
        | cons g gs => exact ⟨g, gs, rfl⟩
      have h1 : splitNl (c :: cs) = (c :: g) :: gs := by
        simp only [splitNl, if_neg hc, hsplit]
      rw [h1]
      have h2 : joinLines ((c :: g) :: gs) = c :: joinLines (g :: gs) := by
        cases gs with
        | nil => rfl
        | cons g2 gs2 => simp [joinLines]
      rw [h2, ← hsplit, ih]

/-- C10 (confirmed).  `CodeAwareChunker.chunk_text` partitions the lines of
the text in order, so joining the returned chunks with single newlines
reconstructs the input exactly. -/
theorem c10_code_aware_lossless (maxS : Nat) (t : List Char) :
    joinLines (CodeAwareChunker.chunk_text maxS t) = t := by
  unfold CodeAwareChunker.chunk_text
  by_cases h : codeLoop maxS (splitNl t) [] 0 [] = []
  · rw [if_pos h]
    rfl
  · rw [if_neg h, codeLoop_eq_groups, List.nil_append,
      joinLines_map _ (codeGroups_nil_ne_nil maxS (splitNl t) 0),
      codeGroups_flatten, List.nil_append, joinLines_splitNl]

/-- C8 (code bug).  `verify_source_integrity` never compares the gathered
hashes: on a store where two original-content chunks of the same filename
carry different `source_file_hash` values it still reports `"verified"` (with
`integrity_preserved = True` and `original_hash` = the hash of the last
matching chunk), contradicting its own docstring ("Verify that source
material hasn't been altered") and the spec. -/
theorem c8_verify_no_hash_check :
    RAGSystem.verify_source_integrity (some c8store) "doc.txt" =
      ⟨"verified", "doc.txt", some "bbb", some 2, some true⟩ ∧
    (c8store.map (fun r => r.meta.source_file_hash)) = ["aaa", "bbb"] ∧
    "aaa" ≠ "bbb" := by
  refine ⟨by decide, by decide, by decide⟩

example :
    groupByType [(['a'], sampleMeta "f" "h" "resume" true),
      (['b'], sampleMeta "f" "h" "code" true),
      (['c'], sampleMeta "f" "h" "resume" true)] =
    [("resume", [(['a'], sampleMeta "f" "h" "resume" true),
        (['c'], sampleMeta "f" "h" "resume" true)]),
      ("code", [(['b'], sampleMeta "f" "h" "code" true)])] := by decide
